import Mathlib

/-! LBinaryTree: a shallow embedding of `src/src/LBinaryTree.cpp`

The C++ class `LBinaryTree<Key, Value>` is a pointer-linked binary search tree
with a `root` pointer and a `size` counter.  A pointer to a node is embedded as
a value of `BinaryTreeNode K V`: `null` is `nullptr`, `node l k v r` is the
address of a node whose getters return `l`, `k`, `v`, `r`.  Each C++ member
function becomes a Lean function with the same name; the private recursive
overloads (first argument a node pointer) live in the namespace
`BinaryTreeNode`, the public ones in `LBinaryTree`.

The key operators `<=`, `<`, `==` of the template parameter `Key` are the
operations of the instances `LE K`, `LT K`, `DecidableEq K`; the stream
operator `<<` on keys and values is `toString`.
-/

/-- Modelled from the spec: the node class `BinaryTreeNode<Key, Value>` is declared in
`BinaryTreeNode.hpp`, which is not among the sources.  The spec gives it a
key, a value and optional left and right subtrees; `null` is the absent
subtree (`nullptr`). -/
inductive BinaryTreeNode (K V : Type) where
  | null : BinaryTreeNode K V
  | node (left : BinaryTreeNode K V) (key : K) (value : V) (right : BinaryTreeNode K V) :
      BinaryTreeNode K V
  deriving DecidableEq, Repr

/-- What a non-null node pointer gives access to through `getLeft`, `getKey`,
`getValue`, `getRight`: the result type of the private `find`. -/
structure NodeRef (K V : Type) where
  getLeft : BinaryTreeNode K V
  getKey : K
  getValue : V
  getRight : BinaryTreeNode K V
  deriving DecidableEq, Repr

/-- Modelled from the spec: the exception class is declared in `BinaryTreeException.hpp`,
which is not among the sources; it is constructed from the message string. -/
structure BinaryTreeKeyNotFoundException where
  what : String
  deriving DecidableEq, Repr

/-- Modelled from the spec: the member `size` is declared in the base class `BinaryTree`
(`BinaryTree.hpp`, not among the sources); the spec calls it an integer count
of the nodes, embedded as a natural number. -/
structure LBinaryTree (K V : Type) where
  root : BinaryTreeNode K V
  size : Nat
  deriving DecidableEq, Repr

/-- One `delete node` of the recursive `clear`, the node named by the path that
leads to it from the pointer `clear` was called with (`false` is `getLeft`,
`true` is `getRight`). -/
abbrev NodePath := List Bool

namespace BinaryTreeNode

variable {K V : Type}

/-- Private `str(BinaryTreeNode*)`, lines 141-160: in-order traversal, every
value followed by one space. -/
def str [ToString V] : BinaryTreeNode K V → String
  | null => ""
  | node left _ value right => str left ++ toString value ++ " " ++ str right

/-- Private `clear(BinaryTreeNode*)`, lines 174-190: clears the left subtree,
then the right subtree, then deletes the node.  The result is the sequence of
deleted nodes in the order of the `delete` statements. -/
def clear : BinaryTreeNode K V → List NodePath
  | null => []
  | node left _ _ right =>
    (clear left).map (fun p => false :: p) ++ (clear right).map (fun p => true :: p) ++ [[]]

/-- Private `insert(BinaryTreeNode*, key, value)`, lines 219-238.  The member
`size` that the body increments is threaded through: the result is the
returned pointer and the new `size`. -/
def insert [LE K] [DecidableRel (fun a b : K => a ≤ b)] :
    BinaryTreeNode K V → Nat → K → V → BinaryTreeNode K V × Nat
  | null, size, key, value => (node null key value null, size + 1)
  | node left k v right, size, key, value =>
    if key ≤ k then
      let res := insert left size key value
      (node res.1 k v right, res.2)
    else
      let res := insert right size key value
      (node left k v res.1, res.2)

end BinaryTreeNode

/-- Default constructor `LBinaryTree()`, lines 37-42. -/
def LBinaryTree.ctor {K V : Type} : LBinaryTree K V :=
  { root := BinaryTreeNode.null, size := 0 }

/-- Public `str()`, lines 100-108. -/
def LBinaryTree.str {K V : Type} [ToString V] (self : LBinaryTree K V) : String :=
  "<BinaryTree> size: " ++ toString self.size ++ " values: [ " ++ self.root.str ++ "]"

/-- Public `clear()`, lines 117-126: runs the recursive `clear` on `root`, then
resets `root` and `size`.  The result is the new state and the sequence of
deleted nodes. -/
def LBinaryTree.clear {K V : Type} (self : LBinaryTree K V) : LBinaryTree K V × List NodePath :=
  let released := self.root.clear
  ({ root := BinaryTreeNode.null, size := 0 }, released)

/-- Public `insert(key, value)`, lines 201-205: `root = insert(root, key, value)`,
with the `size` the recursive overload has incremented. -/
def LBinaryTree.insert {K V : Type} [LE K] [DecidableRel (fun a b : K => a ≤ b)]
    (self : LBinaryTree K V) (key : K) (value : V) : LBinaryTree K V :=
  let res := self.root.insert self.size key value
  { root := res.1, size := res.2 }

/-- Private `find(BinaryTreeNode*, key)`, lines 264-287.  `self` is `this`, whose
`str()` goes into the message of the exception. -/
def BinaryTreeNode.find {K V : Type} [ToString K] [ToString V] [DecidableEq K] [LT K]
    [DecidableRel (fun a b : K => a < b)] (self : LBinaryTree K V) :
    BinaryTreeNode K V → K → Except BinaryTreeKeyNotFoundException (NodeRef K V)
  | BinaryTreeNode.null, key =>
    Except.error ⟨"BinaryTreeKeyNotFoundException: could not find key-value of: " ++
      toString key ++ ", in tree:\n\t" ++ self.str⟩
  | BinaryTreeNode.node left k v right, key =>
    if k = key then
      Except.ok ⟨left, k, v, right⟩
    else if key < k then
      BinaryTreeNode.find self left key
    else
      BinaryTreeNode.find self right key

/-- Public `find(key)`, lines 250-254: `find(root, key)->getValue()`. -/
def LBinaryTree.find {K V : Type} [ToString K] [ToString V] [DecidableEq K] [LT K]
    [DecidableRel (fun a b : K => a < b)] (self : LBinaryTree K V) (key : K) :
    Except BinaryTreeKeyNotFoundException V :=
  match BinaryTreeNode.find self self.root key with
  | Except.error e => Except.error e
  | Except.ok n => Except.ok n.getValue

/-- Array constructor `LBinaryTree(size, keys, values)`, lines 59-74: starts
from the empty state and runs `insert(keys[idx], values[idx])` for
`idx = 0, ..., size - 1`.  Reading an array past its end has no defined result
in C++; the embedding returns `none` there. -/
def LBinaryTree.ctorArrays {K V : Type} [LE K] [DecidableRel (fun a b : K => a ≤ b)]
    (size : Int) (keys : List K) (values : List V) : Option (LBinaryTree K V) :=
  (List.range size.toNat).foldlM
    (fun self idx =>
      match keys[idx]?, values[idx]? with
      | some k, some v => some (self.insert k v)
      | _, _ => none)
    { root := BinaryTreeNode.null, size := 0 }

/-! ## Notions the properties are stated with -/

/-- The in-order sequence of the stored pairs: left subtree, node, right
subtree, the order in which `str` visits the nodes. -/
def BinaryTreeNode.inorder {K V : Type} : BinaryTreeNode K V → List (K × V)
  | BinaryTreeNode.null => []
  | BinaryTreeNode.node left k v right =>
    BinaryTreeNode.inorder left ++ (k, v) :: BinaryTreeNode.inorder right

/-- The keys in in-order. -/
def BinaryTreeNode.keys {K V : Type} (n : BinaryTreeNode K V) : List K :=
  n.inorder.map Prod.fst

/-- The number of nodes reachable from a pointer. -/
def BinaryTreeNode.count {K V : Type} : BinaryTreeNode K V → Nat
  | BinaryTreeNode.null => 0
  | BinaryTreeNode.node left _ _ right =>
    BinaryTreeNode.count left + 1 + BinaryTreeNode.count right

/-- The node invariant of the spec, at every node: the keys of the left subtree
are `≤` the key of the node, the keys of the right subtree are `>` it. -/
def BinaryTreeNode.IsBST {K V : Type} [LE K] [LT K] : BinaryTreeNode K V → Prop
  | BinaryTreeNode.null => True
  | BinaryTreeNode.node left k _ right =>
    (∀ x ∈ left.keys, x ≤ k) ∧ (∀ x ∈ right.keys, k < x) ∧
      BinaryTreeNode.IsBST left ∧ BinaryTreeNode.IsBST right

instance BinaryTreeNode.decidableIsBST {K V : Type} [LE K] [LT K]
    [DecidableRel (fun a b : K => a ≤ b)] [DecidableRel (fun a b : K => a < b)] :
    (n : BinaryTreeNode K V) → Decidable n.IsBST
  | BinaryTreeNode.null => isTrue trivial
  | BinaryTreeNode.node left k _ right =>
    have : Decidable left.IsBST := BinaryTreeNode.decidableIsBST left
    have : Decidable right.IsBST := BinaryTreeNode.decidableIsBST right
    inferInstanceAs (Decidable ((∀ x ∈ left.keys, x ≤ k) ∧ (∀ x ∈ right.keys, k < x) ∧
      BinaryTreeNode.IsBST left ∧ BinaryTreeNode.IsBST right))

/-- A sequence of `insert` calls, in the order of the list. -/
def LBinaryTree.insertAll {K V : Type} [LE K] [DecidableRel (fun a b : K => a ≤ b)]
    (self : LBinaryTree K V) (ps : List (K × V)) : LBinaryTree K V :=
  ps.foldl (fun t p => t.insert p.1 p.2) self

/-- The states a tree object can be in: those of the two constructors, and
those `insert` and `clear` lead to. -/
inductive LBinaryTree.Reachable {K V : Type} [LE K] [DecidableRel (fun a b : K => a ≤ b)] :
    LBinaryTree K V → Prop
  | ctor : LBinaryTree.Reachable LBinaryTree.ctor
  | ctorArrays (size : Int) (keys : List K) (values : List V) (t : LBinaryTree K V) :
      LBinaryTree.ctorArrays size keys values = some t → LBinaryTree.Reachable t
  | insert (t : LBinaryTree K V) (key : K) (value : V) :
      LBinaryTree.Reachable t → LBinaryTree.Reachable (t.insert key value)
  | clear (t : LBinaryTree K V) : LBinaryTree.Reachable t → LBinaryTree.Reachable t.clear.1

/-- The value `find` returns when it succeeds: the descent of the private
`find` without the message of the exception. -/
def BinaryTreeNode.lookup {K V : Type} [DecidableEq K] [LT K]
    [DecidableRel (fun a b : K => a < b)] : BinaryTreeNode K V → K → Option V
  | BinaryTreeNode.null, _ => none
  | BinaryTreeNode.node left k v right, key =>
    if k = key then some v
    else if key < k then BinaryTreeNode.lookup left key
    else BinaryTreeNode.lookup right key

/-- The text `str` writes for a sequence of values: each one followed by a space. -/
def valuesText {V : Type} [ToString V] (vs : List V) : String :=
  vs.foldr (fun v acc => toString v ++ " " ++ acc) ""

/-- The depth of a tree: the number of nodes on a longest path down from the
pointer. -/
def BinaryTreeNode.depth {K V : Type} : BinaryTreeNode K V → Nat
  | BinaryTreeNode.null => 0
  | BinaryTreeNode.node left _ _ right =>
    max (BinaryTreeNode.depth left) (BinaryTreeNode.depth right) + 1

/-- The right-skewed chain of a sequence of pairs: the first pair at the root,
no node has a left child, the right child of a node holds the next pair. -/
def BinaryTreeNode.rightChain {K V : Type} : List (K × V) → BinaryTreeNode K V
  | [] => BinaryTreeNode.null
  | p :: ps => BinaryTreeNode.node BinaryTreeNode.null p.1 p.2 (BinaryTreeNode.rightChain ps)

/-- What the comparison of `insert` gives at every node, whatever the order:
the keys of the left subtree are `≤` the key of the node, the keys of the
right subtree are not. -/
def BinaryTreeNode.IsRouted {K V : Type} [LE K] : BinaryTreeNode K V → Prop
  | BinaryTreeNode.null => True
  | BinaryTreeNode.node left k _ right =>
    (∀ x ∈ left.keys, x ≤ k) ∧ (∀ x ∈ right.keys, ¬ x ≤ k) ∧
      BinaryTreeNode.IsRouted left ∧ BinaryTreeNode.IsRouted right

/-- A key type with a strict partial order that is not total: pairs of
numbers, `a < b` when `a` is at most `b` in both components and differs from
it, `a ≤ b` when `a < b` or `a == b`. -/
structure PairKey where
  x : Nat
  y : Nat
  deriving DecidableEq, Repr

instance PairKey.instLT : LT PairKey :=
  ⟨fun a b => a.x ≤ b.x ∧ a.y ≤ b.y ∧ a ≠ b⟩

instance PairKey.instLE : LE PairKey :=
  ⟨fun a b => a < b ∨ a = b⟩

instance PairKey.decidableLT : DecidableRel (fun a b : PairKey => a < b) :=
  fun a b => inferInstanceAs (Decidable (a.x ≤ b.x ∧ a.y ≤ b.y ∧ a ≠ b))

instance PairKey.decidableLE : DecidableRel (fun a b : PairKey => a ≤ b) :=
  fun a b => inferInstanceAs (Decidable (a < b ∨ a = b))

/-- Whether a path leads from the pointer to a node. -/
def BinaryTreeNode.hasNodeAt {K V : Type} : BinaryTreeNode K V → NodePath → Bool
  | BinaryTreeNode.null, _ => false
  | BinaryTreeNode.node _ _ _ _, [] => true
  | BinaryTreeNode.node left _ _ _, false :: p => BinaryTreeNode.hasNodeAt left p
  | BinaryTreeNode.node _ _ _ right, true :: p => BinaryTreeNode.hasNodeAt right p

/-- In the sequence `trace` of deleted nodes, `a` is deleted at an earlier step
than `b`. -/
def ReleasedBefore (trace : List NodePath) (a b : NodePath) : Prop :=
  ∃ l1 l2 l3 : List NodePath, trace = l1 ++ a :: l2 ++ b :: l3

/-- The order a post-order traversal allows between an earlier node `a` and a
later node `b`: `b` is not `a` nor in the subtree of `a`, and it is not so
that `a` is in the right and `b` in the left subtree of one node. -/
def PostOrderAllows (a b : NodePath) : Prop :=
  (∀ r : NodePath, b ≠ a ++ r) ∧
    ∀ p r s : NodePath, ¬ (a = p ++ true :: r ∧ b = p ++ false :: s)

/-! ## Lemmas on the recursive `insert` -/

section InsertLemmas

variable {K V : Type}

theorem BinaryTreeNode.insert_snd [LE K] [DecidableRel (fun a b : K => a ≤ b)]
    (n : BinaryTreeNode K V) (size : Nat) (key : K) (value : V) :
    (n.insert size key value).2 = size + 1 := by
  induction n with
  | null => rfl
  | node left k v right ihl ihr =>
    by_cases h : key ≤ k <;> simp [BinaryTreeNode.insert, h, ihl, ihr]

theorem BinaryTreeNode.insert_fst_size [LE K] [DecidableRel (fun a b : K => a ≤ b)]
    (n : BinaryTreeNode K V) (size size' : Nat) (key : K) (value : V) :
    (n.insert size key value).1 = (n.insert size' key value).1 := by
  induction n with
  | null => rfl
  | node left k v right ihl ihr =>
    by_cases h : key ≤ k <;> simp [BinaryTreeNode.insert, h, ihl, ihr]

theorem BinaryTreeNode.count_insert [LE K] [DecidableRel (fun a b : K => a ≤ b)]
    (n : BinaryTreeNode K V) (size : Nat) (key : K) (value : V) :
    (n.insert size key value).1.count = n.count + 1 := by
  induction n with
  | null => rfl
  | node left k v right ihl ihr =>
    by_cases h : key ≤ k <;> simp [BinaryTreeNode.insert, BinaryTreeNode.count, h, ihl, ihr] <;> omega

theorem BinaryTreeNode.inorder_insert_perm [LE K] [DecidableRel (fun a b : K => a ≤ b)]
    (n : BinaryTreeNode K V) (size : Nat) (key : K) (value : V) :
    List.Perm (n.insert size key value).1.inorder ((key, value) :: n.inorder) := by
  induction n with
  | null => simp [BinaryTreeNode.insert, BinaryTreeNode.inorder]
  | node left k v right ihl ihr =>
    by_cases h : key ≤ k
    · simp only [BinaryTreeNode.insert, h, if_true, BinaryTreeNode.inorder]
      exact (ihl.append_right _).trans (by simp)
    · simp only [BinaryTreeNode.insert, h, if_false, BinaryTreeNode.inorder]
      have h1 : List.Perm (left.inorder ++ (k, v) :: (right.insert size key value).1.inorder)
          (left.inorder ++ (k, v) :: (key, value) :: right.inorder) :=
        List.Perm.append_left _ (List.Perm.cons _ ihr)
      refine h1.trans ?_
      have h2 : List.Perm (left.inorder ++ (k, v) :: (key, value) :: right.inorder)
          ((key, value) :: (left.inorder ++ (k, v) :: right.inorder)) := by
        have := @List.perm_middle _ (key, value) (left.inorder ++ [(k, v)]) right.inorder
        simpa using this
      exact h2

theorem BinaryTreeNode.mem_keys_insert [LE K] [DecidableRel (fun a b : K => a ≤ b)]
    (n : BinaryTreeNode K V) (size : Nat) (key : K) (value : V) (x : K) :
    x ∈ (n.insert size key value).1.keys ↔ x = key ∨ x ∈ n.keys := by
  unfold BinaryTreeNode.keys
  rw [((n.inorder_insert_perm size key value).map Prod.fst).mem_iff]
  simp

theorem BinaryTreeNode.isBST_insert [LinearOrder K]
    (n : BinaryTreeNode K V) (size : Nat) (key : K) (value : V) (hn : n.IsBST) :
    (n.insert size key value).1.IsBST := by
  induction n with
  | null => simp [BinaryTreeNode.insert, BinaryTreeNode.IsBST, BinaryTreeNode.keys,
      BinaryTreeNode.inorder]
  | node left k v right ihl ihr =>
    obtain ⟨hl, hr, bl, br⟩ := hn
    by_cases h : key ≤ k
    · simp only [BinaryTreeNode.insert, h, if_true, BinaryTreeNode.IsBST]
      refine ⟨?_, hr, ihl bl, br⟩
      intro x hx
      rcases (left.mem_keys_insert size key value x).1 hx with rfl | hx
      · exact h
      · exact hl x hx
    · simp only [BinaryTreeNode.insert, h, if_false, BinaryTreeNode.IsBST]
      refine ⟨hl, ?_, bl, ihr br⟩
      intro x hx
      rcases (right.mem_keys_insert size key value x).1 hx with rfl | hx
      · exact lt_of_not_le h
      · exact hr x hx

theorem BinaryTreeNode.sorted_keys_of_isBST [LinearOrder K]
    (n : BinaryTreeNode K V) (hn : n.IsBST) : List.Sorted (fun a b : K => a ≤ b) n.keys := by
  induction n with
  | null => simp [BinaryTreeNode.keys, BinaryTreeNode.inorder]
  | node left k v right ihl ihr =>
    obtain ⟨hl, hr, bl, br⟩ := hn
    have hl' := ihl bl
    have hr' := ihr br
    unfold BinaryTreeNode.keys at hl hr hl' hr' ⊢
    simp only [BinaryTreeNode.inorder, List.map_append, List.map_cons]
    refine List.pairwise_append.2 ⟨hl', List.pairwise_cons.2 ⟨fun x hx => (hr x hx).le, hr'⟩, ?_⟩
    intro a ha b hb
    rcases List.mem_cons.1 hb with rfl | hb
    · exact hl a ha
    · exact (hl a ha).trans (hr b hb).le

theorem BinaryTreeNode.depth_rightChain (ps : List (K × V)) :
    (BinaryTreeNode.rightChain ps).depth = ps.length := by
  induction ps with
  | nil => rfl
  | cons p ps ih => simp [BinaryTreeNode.rightChain, BinaryTreeNode.depth, ih]

theorem BinaryTreeNode.insert_rightChain [LinearOrder K] (ps : List (K × V)) (size : Nat)
    (key : K) (value : V) (h : ∀ p ∈ ps, p.1 < key) :
    ((BinaryTreeNode.rightChain ps).insert size key value).1 =
      BinaryTreeNode.rightChain (ps ++ [(key, value)]) := by
  induction ps with
  | nil => rfl
  | cons p ps ih =>
    have hp : ¬ key ≤ p.1 := not_le.2 (h p (List.mem_cons_self _ _))
    simp only [BinaryTreeNode.rightChain, BinaryTreeNode.insert, hp, if_false, List.cons_append]
    rw [ih (fun q hq => h q (List.mem_cons_of_mem _ hq))]
    rfl

theorem List.orderedInsert_append_of_rel {α : Type} (r : α → α → Prop) [DecidableRel r]
    (a b : α) (L R : List α) (h : r a b) :
    List.orderedInsert r a (L ++ b :: R) = List.orderedInsert r a L ++ b :: R := by
  induction L with
  | nil => simp [List.orderedInsert, h]
  | cons c L ih =>
    by_cases hc : r a c <;> simp [List.orderedInsert, hc, ih]

theorem List.orderedInsert_append_of_not_rel {α : Type} (r : α → α → Prop) [DecidableRel r]
    (a : α) (L R : List α) (h : ∀ x ∈ L, ¬ r a x) :
    List.orderedInsert r a (L ++ R) = L ++ List.orderedInsert r a R := by
  induction L with
  | nil => rfl
  | cons c L ih =>
    have hc : ¬ r a c := h c (List.mem_cons_self _ _)
    simp [List.orderedInsert, hc, ih (fun x hx => h x (List.mem_cons_of_mem _ hx))]

/-- Inserting a pair into a tree with the node invariant puts it, in the
in-order sequence, right before the first pair whose key is not smaller. -/
theorem BinaryTreeNode.inorder_insert_eq_orderedInsert [LinearOrder K]
    (n : BinaryTreeNode K V) (size : Nat) (key : K) (value : V) (hn : n.IsBST) :
    (n.insert size key value).1.inorder =
      List.orderedInsert (fun p q : K × V => p.1 ≤ q.1) (key, value) n.inorder := by
  induction n with
  | null => rfl
  | node left k v right ihl ihr =>
    obtain ⟨hl, hr, bl, br⟩ := hn
    by_cases h : key ≤ k
    · simp only [BinaryTreeNode.insert, h, if_true, BinaryTreeNode.inorder]
      rw [ihl bl, List.orderedInsert_append_of_rel (fun p q : K × V => p.1 ≤ q.1) _ _ _ _ h]
    · simp only [BinaryTreeNode.insert, h, if_false, BinaryTreeNode.inorder]
      have hleft : ∀ b ∈ left.inorder, ¬ (key, value).1 ≤ b.1 := by
        intro b hb
        have hbk : b.1 ≤ k := hl b.1 (List.mem_map_of_mem Prod.fst hb)
        exact not_le.2 (lt_of_le_of_lt hbk (lt_of_not_le h))
      rw [ihr br, List.orderedInsert_append_of_not_rel (fun p q : K × V => p.1 ≤ q.1) _ _ _ hleft]
      simp [List.orderedInsert, h]

theorem BinaryTreeNode.isRouted_insert [LE K] [DecidableRel (fun a b : K => a ≤ b)]
    (n : BinaryTreeNode K V) (size : Nat) (key : K) (value : V) (hn : n.IsRouted) :
    (n.insert size key value).1.IsRouted := by
  induction n with
  | null => simp [BinaryTreeNode.insert, BinaryTreeNode.IsRouted, BinaryTreeNode.keys,
      BinaryTreeNode.inorder]
  | node left k v right ihl ihr =>
    obtain ⟨hl, hr, bl, br⟩ := hn
    by_cases h : key ≤ k
    · simp only [BinaryTreeNode.insert, h, if_true, BinaryTreeNode.IsRouted]
      refine ⟨?_, hr, ihl bl, br⟩
      intro x hx
      rcases (left.mem_keys_insert size key value x).1 hx with rfl | hx
      · exact h
      · exact hl x hx
    · simp only [BinaryTreeNode.insert, h, if_false, BinaryTreeNode.IsRouted]
      refine ⟨hl, ?_, bl, ihr br⟩
      intro x hx
      rcases (right.mem_keys_insert size key value x).1 hx with rfl | hx
      · exact h
      · exact hr x hx

theorem BinaryTreeNode.isBST_of_isRouted [LE K] [LT K] (n : BinaryTreeNode K V)
    (htotal : ∀ a b : K, ¬ a ≤ b → b < a) (hn : n.IsRouted) : n.IsBST := by
  induction n with
  | null => trivial
  | node left k v right ihl ihr =>
    obtain ⟨hl, hr, bl, br⟩ := hn
    exact ⟨hl, fun x hx => htotal x k (hr x hx), ihl bl, ihr br⟩

end InsertLemmas

/-! ## Lemmas on the public operations -/

section StateLemmas

variable {K V : Type}

theorem LBinaryTree.insertAll_nil [LE K] [DecidableRel (fun a b : K => a ≤ b)]
    (t : LBinaryTree K V) : t.insertAll [] = t := rfl

theorem LBinaryTree.insertAll_cons [LE K] [DecidableRel (fun a b : K => a ≤ b)]
    (t : LBinaryTree K V) (p : K × V) (ps : List (K × V)) :
    t.insertAll (p :: ps) = (t.insert p.1 p.2).insertAll ps := rfl

theorem LBinaryTree.insertAll_append [LE K] [DecidableRel (fun a b : K => a ≤ b)]
    (t : LBinaryTree K V) (ps qs : List (K × V)) :
    t.insertAll (ps ++ qs) = (t.insertAll ps).insertAll qs := by
  simp [LBinaryTree.insertAll, List.foldl_append]

theorem LBinaryTree.size_insert [LE K] [DecidableRel (fun a b : K => a ≤ b)]
    (t : LBinaryTree K V) (key : K) (value : V) : (t.insert key value).size = t.size + 1 := by
  simp [LBinaryTree.insert, BinaryTreeNode.insert_snd]

theorem LBinaryTree.root_count_insert [LE K] [DecidableRel (fun a b : K => a ≤ b)]
    (t : LBinaryTree K V) (key : K) (value : V) :
    (t.insert key value).root.count = t.root.count + 1 := by
  simp [LBinaryTree.insert, BinaryTreeNode.count_insert]

theorem LBinaryTree.size_insertAll [LE K] [DecidableRel (fun a b : K => a ≤ b)]
    (t : LBinaryTree K V) (ps : List (K × V)) : (t.insertAll ps).size = t.size + ps.length := by
  induction ps generalizing t with
  | nil => rfl
  | cons p ps ih =>
    rw [LBinaryTree.insertAll_cons, ih, LBinaryTree.size_insert, List.length_cons]
    omega

theorem LBinaryTree.isBST_insertAll [LinearOrder K] (t : LBinaryTree K V) (ps : List (K × V))
    (h : t.root.IsBST) : (t.insertAll ps).root.IsBST := by
  induction ps generalizing t with
  | nil => exact h
  | cons p ps ih =>
    rw [LBinaryTree.insertAll_cons]
    exact ih _ (BinaryTreeNode.isBST_insert _ _ _ _ h)

theorem LBinaryTree.inorder_insertAll_perm [LE K] [DecidableRel (fun a b : K => a ≤ b)]
    (t : LBinaryTree K V) (ps : List (K × V)) :
    List.Perm (t.insertAll ps).root.inorder (ps ++ t.root.inorder) := by
  induction ps generalizing t with
  | nil => exact List.Perm.refl _
  | cons p ps ih =>
    rw [LBinaryTree.insertAll_cons]
    refine (ih _).trans ?_
    have h1 : List.Perm (t.insert p.1 p.2).root.inorder (p :: t.root.inorder) :=
      BinaryTreeNode.inorder_insert_perm _ _ _ _
    exact (List.Perm.append_left ps h1).trans (by simp)

/-- An invariant of `insert` that holds in the empty state holds after the
array constructor, whenever it returns. -/
theorem LBinaryTree.ctorArrays_induction [LE K] [DecidableRel (fun a b : K => a ≤ b)]
    (P : LBinaryTree K V → Prop) (h0 : P { root := BinaryTreeNode.null, size := 0 })
    (hstep : ∀ t key value, P t → P (t.insert key value))
    (size : Int) (keys : List K) (values : List V) (t : LBinaryTree K V)
    (h : LBinaryTree.ctorArrays size keys values = some t) : P t := by
  unfold LBinaryTree.ctorArrays at h
  generalize List.range size.toNat = idxs at h
  generalize ({ root := BinaryTreeNode.null, size := 0 } : LBinaryTree K V) = init at h h0
  induction idxs generalizing init with
  | nil =>
    simp only [List.foldlM_nil] at h
    cases h
    exact h0
  | cons i idxs ih =>
    simp only [List.foldlM_cons] at h
    cases hk : keys[i]? with
    | none => simp [hk] at h
    | some k =>
      cases hv : values[i]? with
      | none => simp [hk, hv] at h
      | some v =>
        simp only [hk, hv, Option.bind_eq_bind, Option.some_bind] at h
        exact ih _ h (hstep _ k v h0)

theorem LBinaryTree.size_eq_count_of_reachable [LE K] [DecidableRel (fun a b : K => a ≤ b)]
    (t : LBinaryTree K V) (h : t.Reachable) : t.size = t.root.count := by
  induction h with
  | ctor => rfl
  | ctorArrays size keys values t ht =>
    refine LBinaryTree.ctorArrays_induction (fun t => t.size = t.root.count) rfl ?_ size keys
      values t ht
    intro t key value ih
    rw [LBinaryTree.size_insert, LBinaryTree.root_count_insert, ih]
  | insert t key value _ ih => rw [LBinaryTree.size_insert, LBinaryTree.root_count_insert, ih]
  | clear t _ _ => rfl

theorem LBinaryTree.insertAll_rightChain [LinearOrder K] (t : LBinaryTree K V)
    (qs ps : List (K × V)) (ht : t.root = BinaryTreeNode.rightChain qs)
    (hs : List.Sorted (fun a b : K => a < b) ((qs ++ ps).map Prod.fst)) :
    (t.insertAll ps).root = BinaryTreeNode.rightChain (qs ++ ps) := by
  induction ps generalizing t qs with
  | nil => simpa using ht
  | cons p ps ih =>
    rw [LBinaryTree.insertAll_cons]
    have hlt : ∀ q ∈ qs, q.1 < p.1 := by
      intro q hq
      rw [List.map_append, List.map_cons] at hs
      exact (List.pairwise_append.1 hs).2.2 q.1 (List.mem_map_of_mem Prod.fst hq) p.1
        (List.mem_cons_self _ _)
    have hroot : (t.insert p.1 p.2).root = BinaryTreeNode.rightChain (qs ++ [p]) := by
      simp only [LBinaryTree.insert]
      rw [ht]
      exact BinaryTreeNode.insert_rightChain qs t.size p.1 p.2 hlt
    have := ih (t.insert p.1 p.2) (qs ++ [p]) hroot (by simpa using hs)
    simpa using this

theorem LBinaryTree.inorder_insertAll_eq_foldl [LinearOrder K] (t : LBinaryTree K V)
    (ps : List (K × V)) (ht : t.root.IsBST) :
    (t.insertAll ps).root.inorder =
      ps.foldl (fun acc p => List.orderedInsert (fun p q : K × V => p.1 ≤ q.1) p acc)
        t.root.inorder := by
  induction ps generalizing t with
  | nil => rfl
  | cons p ps ih =>
    rw [LBinaryTree.insertAll_cons, ih _ (BinaryTreeNode.isBST_insert _ _ _ _ ht)]
    simp only [List.foldl_cons, LBinaryTree.insert]
    rw [BinaryTreeNode.inorder_insert_eq_orderedInsert _ _ _ _ ht]

theorem List.insertionSort_eq_foldr {α : Type} (r : α → α → Prop) [DecidableRel r]
    (l : List α) :
    List.insertionSort r l = l.foldr (fun p acc => List.orderedInsert r p acc) [] := by
  induction l with
  | nil => rfl
  | cons a l ih => simp [List.insertionSort, ih]

/-- Insertion sort by key keeps the pairs of one key in the order they had. -/
theorem List.filter_key_insertionSort [LinearOrder K] (l : List (K × V)) (k : K) :
    (List.insertionSort (fun p q : K × V => p.1 ≤ q.1) l).filter (fun p => decide (p.1 = k)) =
      l.filter (fun p => decide (p.1 = k)) := by
  have hins : ∀ (a : K × V) (m : List (K × V)),
      (List.orderedInsert (fun p q : K × V => p.1 ≤ q.1) a m).filter
          (fun p => decide (p.1 = k)) =
        (a :: m).filter (fun p => decide (p.1 = k)) := by
    intro a m
    induction m with
    | nil => rfl
    | cons b m ihm =>
      by_cases hab : a.1 ≤ b.1
      · simp [List.orderedInsert, hab]
      · simp only [List.orderedInsert, hab, if_false]
        rw [List.filter_cons, ihm]
        by_cases hak : a.1 = k
        · have hbk : ¬ b.1 = k := fun e => hab (by rw [hak, e])
          simp [List.filter_cons, hak, hbk]
        · by_cases hbk : b.1 = k <;> simp [List.filter_cons, hak, hbk]
  induction l with
  | nil => rfl
  | cons a l ih =>
    rw [List.insertionSort, hins, List.filter_cons, List.filter_cons, ih]

theorem LBinaryTree.isRouted_insertAll [LE K] [DecidableRel (fun a b : K => a ≤ b)]
    (t : LBinaryTree K V) (ps : List (K × V)) (h : t.root.IsRouted) :
    (t.insertAll ps).root.IsRouted := by
  induction ps generalizing t with
  | nil => exact h
  | cons p ps ih =>
    rw [LBinaryTree.insertAll_cons]
    exact ih _ (BinaryTreeNode.isRouted_insert _ _ _ _ h)

end StateLemmas

/-! ## Lemmas on `find` -/

section FindLemmas

variable {K V : Type}

/-- The text of the exception `find` throws for `key` in the tree `self`. -/
theorem BinaryTreeNode.find_cases [ToString K] [ToString V] [DecidableEq K] [LT K]
    [DecidableRel (fun a b : K => a < b)] (self : LBinaryTree K V) (n : BinaryTreeNode K V)
    (key : K) :
    (∃ r, BinaryTreeNode.find self n key = Except.ok r ∧ n.lookup key = some r.getValue) ∨
      (BinaryTreeNode.find self n key = Except.error
          ⟨"BinaryTreeKeyNotFoundException: could not find key-value of: " ++
            toString key ++ ", in tree:\n\t" ++ self.str⟩ ∧ n.lookup key = none) := by
  induction n with
  | null => exact Or.inr ⟨rfl, rfl⟩
  | node left k v right ihl ihr =>
    by_cases h1 : k = key
    · exact Or.inl ⟨⟨left, k, v, right⟩, by simp [BinaryTreeNode.find, h1],
        by simp [BinaryTreeNode.lookup, h1]⟩
    · by_cases h2 : key < k
      · simpa [BinaryTreeNode.find, BinaryTreeNode.lookup, h1, h2] using ihl
      · simpa [BinaryTreeNode.find, BinaryTreeNode.lookup, h1, h2] using ihr

theorem LBinaryTree.find_of_lookup_some [ToString K] [ToString V] [DecidableEq K] [LT K]
    [DecidableRel (fun a b : K => a < b)] (t : LBinaryTree K V) (key : K) (v : V)
    (h : t.root.lookup key = some v) : t.find key = Except.ok v := by
  unfold LBinaryTree.find
  rcases BinaryTreeNode.find_cases t t.root key with ⟨r, hr, hl⟩ | ⟨_, hl⟩
  · rw [hr]
    rw [h] at hl
    simp only [Option.some.injEq] at hl
    simp [hl]
  · rw [h] at hl
    cases hl

theorem LBinaryTree.find_of_lookup_none [ToString K] [ToString V] [DecidableEq K] [LT K]
    [DecidableRel (fun a b : K => a < b)] (t : LBinaryTree K V) (key : K)
    (h : t.root.lookup key = none) :
    t.find key = Except.error
      ⟨"BinaryTreeKeyNotFoundException: could not find key-value of: " ++
        toString key ++ ", in tree:\n\t" ++ t.str⟩ := by
  unfold LBinaryTree.find
  rcases BinaryTreeNode.find_cases t t.root key with ⟨r, _, hl⟩ | ⟨he, _⟩
  · rw [h] at hl
    cases hl
  · rw [he]

/-- A lookup that succeeds is not disturbed by an insert, whatever the shape
of the tree and the comparison. -/
theorem BinaryTreeNode.lookup_insert_of_some [LE K] [DecidableRel (fun a b : K => a ≤ b)]
    [DecidableEq K] [LT K] [DecidableRel (fun a b : K => a < b)]
    (n : BinaryTreeNode K V) (size : Nat) (key : K) (value : V) (k' : K) (x : V)
    (h : n.lookup k' = some x) : (n.insert size key value).1.lookup k' = some x := by
  induction n with
  | null => cases h
  | node left k v right ihl ihr =>
    by_cases h1 : k = k'
    · subst h1
      simp only [BinaryTreeNode.lookup, if_true] at h
      by_cases hle : key ≤ k <;> simp [BinaryTreeNode.insert, BinaryTreeNode.lookup, hle, h]
    · by_cases h2 : k' < k
      · simp only [BinaryTreeNode.lookup, h1, h2, if_true, if_false] at h
        by_cases hle : key ≤ k <;>
          simp [BinaryTreeNode.insert, BinaryTreeNode.lookup, h1, h2, hle, h, ihl h]
      · simp only [BinaryTreeNode.lookup, h1, h2, if_false] at h
        by_cases hle : key ≤ k <;>
          simp [BinaryTreeNode.insert, BinaryTreeNode.lookup, h1, h2, hle, h, ihr h]

/-- Under a total order, a lookup that fails finds, after an insert, the new
pair if its key is the searched one, and still fails otherwise. -/
theorem BinaryTreeNode.lookup_insert_of_none [LinearOrder K]
    (n : BinaryTreeNode K V) (size : Nat) (key : K) (value : V) (k' : K)
    (h : n.lookup k' = none) :
    (n.insert size key value).1.lookup k' = if key = k' then some value else none := by
  induction n with
  | null =>
    by_cases h1 : key = k' <;> simp [BinaryTreeNode.insert, BinaryTreeNode.lookup, h1]
  | node left k v right ihl ihr =>
    by_cases h1 : k = k'
    · simp [BinaryTreeNode.lookup, h1] at h
    · by_cases h2 : k' < k
      · simp only [BinaryTreeNode.lookup, h1, h2, if_true, if_false] at h
        by_cases hle : key ≤ k
        · simp [BinaryTreeNode.insert, BinaryTreeNode.lookup, h1, h2, hle, ihl h]
        · have hne : key ≠ k' := fun e => hle (e ▸ h2.le)
          simp [BinaryTreeNode.insert, BinaryTreeNode.lookup, h1, h2, hle, h, hne]
      · simp only [BinaryTreeNode.lookup, h1, h2, if_false] at h
        by_cases hle : key ≤ k
        · have hne : key ≠ k' := by
            rintro rfl
            exact h1 (le_antisymm (not_lt.1 h2) hle)
          simp [BinaryTreeNode.insert, BinaryTreeNode.lookup, h1, h2, hle, h, hne]
        · simp [BinaryTreeNode.insert, BinaryTreeNode.lookup, h1, h2, hle, ihr h]

theorem LBinaryTree.lookup_insertAll_of_some [LE K] [DecidableRel (fun a b : K => a ≤ b)]
    [DecidableEq K] [LT K] [DecidableRel (fun a b : K => a < b)]
    (t : LBinaryTree K V) (ps : List (K × V)) (k' : K) (x : V)
    (h : t.root.lookup k' = some x) : (t.insertAll ps).root.lookup k' = some x := by
  induction ps generalizing t with
  | nil => exact h
  | cons p ps ih =>
    rw [LBinaryTree.insertAll_cons]
    exact ih _ (BinaryTreeNode.lookup_insert_of_some _ _ _ _ _ _ h)

/-- Under a total order, what a tree built from the empty one answers for a
key is the value of the first inserted pair with that key. -/
theorem LBinaryTree.lookup_insertAll_of_none [LinearOrder K]
    (t : LBinaryTree K V) (ps : List (K × V)) (k' : K) (h : t.root.lookup k' = none) :
    (t.insertAll ps).root.lookup k' =
      (ps.find? (fun p => decide (p.1 = k'))).map Prod.snd := by
  induction ps generalizing t with
  | nil => simpa using h
  | cons p ps ih =>
    rw [LBinaryTree.insertAll_cons]
    have hins := BinaryTreeNode.lookup_insert_of_none t.root t.size p.1 p.2 k' h
    by_cases hp : p.1 = k'
    · rw [if_pos hp] at hins
      rw [LBinaryTree.lookup_insertAll_of_some _ ps k' p.2 hins]
      simp [List.find?_cons, hp]
    · rw [if_neg hp] at hins
      rw [ih _ hins]
      simp [List.find?_cons, hp]

theorem LBinaryTree.lookup_of_find_ok [ToString K] [ToString V] [DecidableEq K] [LT K]
    [DecidableRel (fun a b : K => a < b)] (t : LBinaryTree K V) (key : K) (v : V)
    (h : t.find key = Except.ok v) : t.root.lookup key = some v := by
  cases hl : t.root.lookup key with
  | some x =>
    rw [LBinaryTree.find_of_lookup_some t key x hl] at h
    cases h
    rfl
  | none =>
    rw [LBinaryTree.find_of_lookup_none t key hl] at h
    cases h

/-- Two trees that answer a key alike and print alike give the same result of
`find`, the exception included. -/
theorem LBinaryTree.find_congr [ToString K] [ToString V] [DecidableEq K] [LT K]
    [DecidableRel (fun a b : K => a < b)] (t u : LBinaryTree K V) (key : K)
    (hl : t.root.lookup key = u.root.lookup key) (hs : t.str = u.str) :
    t.find key = u.find key := by
  cases hu : u.root.lookup key with
  | some x =>
    rw [LBinaryTree.find_of_lookup_some u key x hu,
      LBinaryTree.find_of_lookup_some t key x (hl.trans hu)]
  | none =>
    rw [LBinaryTree.find_of_lookup_none u key hu,
      LBinaryTree.find_of_lookup_none t key (hl.trans hu), hs]

/-- With distinct keys, the first pair with a given key does not depend on the
order of the list. -/
theorem List.find_key_eq_of_perm {K V : Type} [DecidableEq K] (ps qs : List (K × V)) (k : K)
    (hperm : ps.Perm qs) (hd : (ps.map Prod.fst).Nodup) :
    ps.find? (fun p => decide (p.1 = k)) = qs.find? (fun p => decide (p.1 = k)) := by
  cases hq : qs.find? (fun p => decide (p.1 = k)) with
  | none =>
    have hall := List.find?_eq_none.1 hq
    exact List.find?_eq_none.2 (fun p hp => hall p (hperm.mem_iff.1 hp))
  | some q =>
    have hqk : q.1 = k := by simpa using List.find?_some hq
    have hqm : q ∈ ps := hperm.mem_iff.2 (List.mem_of_find?_eq_some hq)
    cases hp : ps.find? (fun p => decide (p.1 = k)) with
    | none =>
      have := List.find?_eq_none.1 hp q hqm
      simp [hqk] at this
    | some p =>
      have hpk : p.1 = k := by simpa using List.find?_some hp
      have hpm : p ∈ ps := List.mem_of_find?_eq_some hp
      rw [List.inj_on_of_nodup_map hd hpm hqm (hpk.trans hqk.symm)]

end FindLemmas

/-! ## Lemmas on `str` and on the array constructor -/

section StrLemmas

variable {K V : Type}

theorem valuesText_append [ToString V] (as bs : List V) :
    valuesText (as ++ bs) = valuesText as ++ valuesText bs := by
  induction as with
  | nil => simp [valuesText]
  | cons a as ih =>
    simp only [valuesText, List.cons_append, List.foldr_cons] at ih ⊢
    rw [ih]
    simp only [String.append_assoc]

theorem BinaryTreeNode.str_eq_valuesText [ToString V] (n : BinaryTreeNode K V) :
    n.str = valuesText (n.inorder.map Prod.snd) := by
  induction n with
  | null => rfl
  | node left k v right ihl ihr =>
    simp only [BinaryTreeNode.str, BinaryTreeNode.inorder, List.map_append, List.map_cons,
      valuesText_append, ihl, ihr]
    simp [valuesText, String.append_assoc]

theorem LBinaryTree.ctorArrays_loop [LE K] [DecidableRel (fun a b : K => a ≤ b)]
    (keys : List K) (values : List V) (init : LBinaryTree K V) (n : Nat)
    (hk : n ≤ keys.length) (hv : n ≤ values.length) :
    (List.range n).foldlM
        (fun self idx =>
          match keys[idx]?, values[idx]? with
          | some k, some v => some (LBinaryTree.insert self k v)
          | _, _ => none)
        init =
      some (init.insertAll ((keys.take n).zip (values.take n))) := by
  induction n with
  | zero => simp [LBinaryTree.insertAll]
  | succ n ih =>
    have hk' : n < keys.length := hk
    have hv' : n < values.length := hv
    rw [List.range_succ, List.foldlM_append, ih (Nat.le_of_lt hk') (Nat.le_of_lt hv')]
    rw [List.take_succ, List.take_succ, List.getElem?_eq_getElem hk',
      List.getElem?_eq_getElem hv']
    simp only [Option.toList_some]
    rw [List.zip_append (by simp [Nat.min_eq_left, Nat.le_of_lt hk', Nat.le_of_lt hv']),
      LBinaryTree.insertAll_append]
    simp [LBinaryTree.insertAll, List.getElem?_eq_getElem hk', List.getElem?_eq_getElem hv']

theorem LBinaryTree.sorted_lt_keys_insertAll [LinearOrder K] (ps : List (K × V))
    (hd : (ps.map Prod.fst).Nodup) :
    List.Sorted (fun a b : K => a < b)
      (((LBinaryTree.ctor : LBinaryTree K V).insertAll ps).root.inorder.map Prod.fst) := by
  have hs : List.Sorted (fun a b : K => a ≤ b)
      (((LBinaryTree.ctor : LBinaryTree K V).insertAll ps).root.inorder.map Prod.fst) :=
    BinaryTreeNode.sorted_keys_of_isBST _ (LBinaryTree.isBST_insertAll _ ps trivial)
  refine List.Sorted.lt_of_le hs ?_
  have hperm := (LBinaryTree.inorder_insertAll_perm (LBinaryTree.ctor : LBinaryTree K V) ps).map
    Prod.fst
  rw [hperm.nodup_iff]
  simpa [LBinaryTree.ctor, BinaryTreeNode.inorder] using hd

/-- With distinct keys, the in-order sequence of a tree built by inserts does
not depend on the order of the inserts. -/
theorem LBinaryTree.inorder_insertAll_of_perm [LinearOrder K] (ps qs : List (K × V))
    (hperm : ps.Perm qs) (hd : (ps.map Prod.fst).Nodup) :
    ((LBinaryTree.ctor : LBinaryTree K V).insertAll ps).root.inorder =
      ((LBinaryTree.ctor : LBinaryTree K V).insertAll qs).root.inorder := by
  have hd' : (qs.map Prod.fst).Nodup := ((hperm.map Prod.fst).nodup_iff).1 hd
  have h1 := List.pairwise_map.1 (LBinaryTree.sorted_lt_keys_insertAll ps hd)
  have h2 := List.pairwise_map.1 (LBinaryTree.sorted_lt_keys_insertAll qs hd')
  haveI : IsAntisymm (K × V) (fun p q => p.1 < q.1) :=
    ⟨fun _ _ hab hba => absurd hba (lt_asymm hab)⟩
  refine List.eq_of_perm_of_sorted ?_ h1 h2
  have p1 := LBinaryTree.inorder_insertAll_perm (LBinaryTree.ctor : LBinaryTree K V) ps
  have p2 := LBinaryTree.inorder_insertAll_perm (LBinaryTree.ctor : LBinaryTree K V) qs
  exact p1.trans ((hperm.append_right _).trans p2.symm)

end StrLemmas

/-! ## Lemmas on the recursive `clear` -/

section ClearLemmas

variable {K V : Type}

theorem PostOrderAllows.cons (d : Bool) (a b : NodePath) (h : PostOrderAllows a b) :
    PostOrderAllows (d :: a) (d :: b) := by
  refine ⟨fun r e => h.1 r (List.cons.inj e).2, ?_⟩
  rintro p r s ⟨e1, e2⟩
  cases p with
  | nil =>
    have h1 := (List.cons.inj e1).1
    have h2 := (List.cons.inj e2).1
    rw [h1] at h2
    cases h2
  | cons c p => exact h.2 p r s ⟨(List.cons.inj e1).2, (List.cons.inj e2).2⟩

theorem PostOrderAllows.left_right (a b : NodePath) :
    PostOrderAllows (false :: a) (true :: b) := by
  refine ⟨fun r e => ?_, ?_⟩
  · have := (List.cons.inj e).1
    cases this
  · rintro p r s ⟨e1, e2⟩
    cases p with
    | nil =>
      have := (List.cons.inj e1).1
      cases this
    | cons c p =>
      have h1 := (List.cons.inj e1).1
      have h2 := (List.cons.inj e2).1
      rw [← h1] at h2
      cases h2

theorem PostOrderAllows.child_root (d : Bool) (a : NodePath) : PostOrderAllows (d :: a) [] := by
  refine ⟨fun r e => (by cases e), ?_⟩
  rintro p r s ⟨_, e2⟩
  cases p <;> cases e2

theorem BinaryTreeNode.mem_clear_iff (n : BinaryTreeNode K V) (p : NodePath) :
    p ∈ n.clear ↔ n.hasNodeAt p = true := by
  induction n generalizing p with
  | null => simp [BinaryTreeNode.clear, BinaryTreeNode.hasNodeAt]
  | node left k v right ihl ihr =>
    cases p with
    | nil => simp [BinaryTreeNode.clear, BinaryTreeNode.hasNodeAt]
    | cons d q =>
      cases d <;> simp [BinaryTreeNode.clear, BinaryTreeNode.hasNodeAt, ihl, ihr]

theorem BinaryTreeNode.length_clear (n : BinaryTreeNode K V) : n.clear.length = n.count := by
  induction n with
  | null => rfl
  | node left k v right ihl ihr =>
    simp [BinaryTreeNode.clear, BinaryTreeNode.count, ihl, ihr]
    omega

theorem BinaryTreeNode.nodup_clear (n : BinaryTreeNode K V) : n.clear.Nodup := by
  induction n with
  | null => simp [BinaryTreeNode.clear]
  | node left k v right ihl ihr =>
    simp only [BinaryTreeNode.clear]
    refine List.Nodup.append (List.Nodup.append ?_ ?_ ?_) (List.nodup_singleton _) ?_
    · exact ihl.map (fun a b e => (List.cons.inj e).2)
    · exact ihr.map (fun a b e => (List.cons.inj e).2)
    · intro a ha hb
      obtain ⟨x, _, rfl⟩ := List.mem_map.1 ha
      obtain ⟨y, _, e⟩ := List.mem_map.1 hb
      cases e
    · intro a ha hb
      rw [List.mem_singleton] at hb
      subst hb
      rcases List.mem_append.1 ha with h | h
      · obtain ⟨x, _, e⟩ := List.mem_map.1 h
        cases e
      · obtain ⟨x, _, e⟩ := List.mem_map.1 h
        cases e

theorem BinaryTreeNode.pairwise_clear (n : BinaryTreeNode K V) :
    n.clear.Pairwise PostOrderAllows := by
  induction n with
  | null => simp [BinaryTreeNode.clear]
  | node left k v right ihl ihr =>
    simp only [BinaryTreeNode.clear]
    refine List.pairwise_append.2 ⟨List.pairwise_append.2 ⟨?_, ?_, ?_⟩,
      List.pairwise_singleton _ _, ?_⟩
    · exact List.pairwise_map.2 (ihl.imp (fun {a b} h => PostOrderAllows.cons false a b h))
    · exact List.pairwise_map.2 (ihr.imp (fun {a b} h => PostOrderAllows.cons true a b h))
    · intro a ha b hb
      obtain ⟨x, _, rfl⟩ := List.mem_map.1 ha
      obtain ⟨y, _, rfl⟩ := List.mem_map.1 hb
      exact PostOrderAllows.left_right x y
    · intro a ha b hb
      rw [List.mem_singleton] at hb
      subst hb
      rcases List.mem_append.1 ha with h | h
      · obtain ⟨x, _, rfl⟩ := List.mem_map.1 h
        exact PostOrderAllows.child_root false x
      · obtain ⟨x, _, rfl⟩ := List.mem_map.1 h
        exact PostOrderAllows.child_root true x

/-- In a sequence whose order `R` allows, two members that `R` does not allow
in the order `b`, `a` come in the order `a`, `b`. -/
theorem ReleasedBefore.of_pairwise (R : NodePath → NodePath → Prop) (trace : List NodePath)
    (a b : NodePath) (hR : trace.Pairwise R) (ha : a ∈ trace) (hb : b ∈ trace) (hne : a ≠ b)
    (hnot : ¬ R b a) : ReleasedBefore trace a b := by
  obtain ⟨s, t, rfl⟩ := List.append_of_mem ha
  rcases List.mem_append.1 hb with h | h
  · exact absurd ((List.pairwise_append.1 hR).2.2 b h a (List.mem_cons_self _ _)) hnot
  · rcases List.mem_cons.1 h with h | h
    · exact absurd h.symm hne
    · obtain ⟨t1, t2, rfl⟩ := List.append_of_mem h
      exact ⟨s, t1, t2, by simp⟩

theorem BinaryTreeNode.hasNodeAt_of_append (n : BinaryTreeNode K V) (p r : NodePath)
    (h : n.hasNodeAt (p ++ r) = true) : n.hasNodeAt p = true := by
  induction p generalizing n with
  | nil =>
    cases n with
    | null => simp [BinaryTreeNode.hasNodeAt] at h
    | node left k v right => rfl
  | cons d p ih =>
    cases n with
    | null => simp [BinaryTreeNode.hasNodeAt] at h
    | node left k v right =>
      cases d
      · exact ih left (by simpa [BinaryTreeNode.hasNodeAt] using h)
      · exact ih right (by simpa [BinaryTreeNode.hasNodeAt] using h)

end ClearLemmas

/-! ## The properties -/

section Properties

variable {K V : Type}

/-- C1: for a totally ordered key type and every finite sequence of `insert`
calls applied to the empty tree, the keys in the in-order of `str` (left
subtree, node, right subtree) are non-decreasing. -/
theorem inorder_keys_nondecreasing [LinearOrder K] (ps : List (K × V)) :
    List.Sorted (fun a b : K => a ≤ b)
      ((LBinaryTree.ctor : LBinaryTree K V).insertAll ps).root.keys :=
  BinaryTreeNode.sorted_keys_of_isBST _ (LBinaryTree.isBST_insertAll _ ps trivial)

/-- C4: `insert` preserves the node invariant (left keys `≤` the key of the
node, right keys `>` it, at every node); the empty tree has it, and so has
every tree built by inserts. -/
theorem isBST_preserved_by_insert [LinearOrder K] (t : LBinaryTree K V) (key : K) (value : V)
    (h : t.root.IsBST) :
    (t.insert key value).root.IsBST ∧ (LBinaryTree.ctor : LBinaryTree K V).root.IsBST ∧
      ∀ ps : List (K × V), ((LBinaryTree.ctor : LBinaryTree K V).insertAll ps).root.IsBST :=
  ⟨BinaryTreeNode.isBST_insert _ _ _ _ h, trivial,
    fun ps => LBinaryTree.isBST_insertAll _ ps trivial⟩

theorem isBST_preserved_by_insert_witness :
    (((LBinaryTree.ctor : LBinaryTree Nat String).insert 5 "a").insert 3 "b").root.IsBST ∧
      ((((LBinaryTree.ctor : LBinaryTree Nat String).insert 5 "a").insert 3 "b").insert 4
        "c").root.IsBST :=
  ⟨by decide, (isBST_preserved_by_insert _ 4 "c" (by decide)).1⟩

/-- C5: in every state reachable from a constructor by `insert` and `clear`,
`size` is the number of nodes reachable from `root`; every `insert` adds
exactly 1 to `size`; after `k` inserts into the empty tree (equal keys
included) `size` is `k`. -/
theorem size_counts_nodes [LE K] [DecidableRel (fun a b : K => a ≤ b)] (t : LBinaryTree K V)
    (h : t.Reachable) :
    t.size = t.root.count ∧ (∀ key value, (t.insert key value).size = t.size + 1) ∧
      ∀ ps : List (K × V), ((LBinaryTree.ctor : LBinaryTree K V).insertAll ps).size = ps.length :=
  ⟨LBinaryTree.size_eq_count_of_reachable t h, fun key value => LBinaryTree.size_insert t key value,
    fun ps => by rw [LBinaryTree.size_insertAll]; simp [LBinaryTree.ctor]⟩

theorem size_counts_nodes_witness :
    (((LBinaryTree.ctor : LBinaryTree Nat String).insert 2 "x").insert 2 "y").size = 2 ∧
      (((LBinaryTree.ctor : LBinaryTree Nat String).insert 2 "x").insert 2 "y").root.count = 2 :=
  have h := (size_counts_nodes (((LBinaryTree.ctor : LBinaryTree Nat String).insert 2 "x").insert
    2 "y") (LBinaryTree.Reachable.insert _ _ _
      (LBinaryTree.Reachable.insert _ _ _ LBinaryTree.Reachable.ctor))).1
  ⟨by decide, h ▸ by decide⟩

/-- C6: `insert` neither overwrites nor loses a pair: for every tree and every
pair, also one whose key is already stored, the in-order sequence of pairs
after `insert(key, value)` is a permutation of the one before with
`(key, value)` added once. -/
theorem insert_adds_one_pair [LE K] [DecidableRel (fun a b : K => a ≤ b)] (t : LBinaryTree K V)
    (key : K) (value : V) :
    List.Perm (t.insert key value).root.inorder ((key, value) :: t.root.inorder) :=
  BinaryTreeNode.inorder_insert_perm _ _ _ _

/-- C2: a pair inserted into a tree since it was last empty (a state with `root`
absent), whatever was inserted before and after it, is found: `find(key)`
returns, and the value it returns was inserted under `key`. -/
theorem find_inserted_key [LinearOrder K] [ToString K] [ToString V] (t : LBinaryTree K V)
    (ps : List (K × V)) (key : K) (value : V) (hempty : t.root = BinaryTreeNode.null)
    (hmem : (key, value) ∈ ps) :
    ∃ v, (t.insertAll ps).find key = Except.ok v ∧ (key, v) ∈ ps := by
  have hnone : t.root.lookup key = none := by rw [hempty]; rfl
  have hl := LBinaryTree.lookup_insertAll_of_none t ps key hnone
  cases hf : ps.find? (fun p => decide (p.1 = key)) with
  | none =>
    have := List.find?_eq_none.1 hf (key, value) hmem
    simp at this
  | some p =>
    have hk : p.1 = key := by simpa using List.find?_some hf
    have hp : p ∈ ps := List.mem_of_find?_eq_some hf
    rw [hf] at hl
    refine ⟨p.2, LBinaryTree.find_of_lookup_some _ _ _ hl, ?_⟩
    rw [← hk]
    exact hp

theorem find_inserted_key_witness :
    ∃ v, ((LBinaryTree.ctor : LBinaryTree Nat String).insertAll
        [(5, "a"), (3, "b"), (8, "c")]).find 3 = Except.ok v ∧
      (3, v) ∈ [(5, "a"), (3, "b"), (8, "c")] :=
  find_inserted_key LBinaryTree.ctor [(5, "a"), (3, "b"), (8, "c")] 3 "b" rfl (by decide)

/-- C3: on a tree built by inserts from the empty tree, `find(k)` throws the
key-not-found exception exactly when no inserted pair has the key `k`. -/
theorem find_fails_iff_not_inserted [LinearOrder K] [ToString K] [ToString V]
    (ps : List (K × V)) (k : K) :
    (∃ e : BinaryTreeKeyNotFoundException,
        ((LBinaryTree.ctor : LBinaryTree K V).insertAll ps).find k = Except.error e) ↔
      ∀ p ∈ ps, p.1 ≠ k := by
  have hl := LBinaryTree.lookup_insertAll_of_none (LBinaryTree.ctor : LBinaryTree K V) ps k rfl
  cases hf : ps.find? (fun p => decide (p.1 = k)) with
  | none =>
    rw [hf] at hl
    have hall := List.find?_eq_none.1 hf
    constructor
    · intro _ p hp
      simpa using hall p hp
    · intro _
      exact ⟨_, LBinaryTree.find_of_lookup_none _ _ hl⟩
  | some p =>
    have hk : p.1 = k := by simpa using List.find?_some hf
    have hp : p ∈ ps := List.mem_of_find?_eq_some hf
    rw [hf] at hl
    have hfind := LBinaryTree.find_of_lookup_some _ _ _ hl
    constructor
    · rintro ⟨e, he⟩
      rw [hfind] at he
      cases he
    · intro hall
      exact absurd hk (hall p hp)

/-- C9: on a tree built by inserts from the empty tree, `find(k)` returns the
value of the earliest inserted pair with key `k`: if no pair of `before` has
the key `k`, then after inserting `before`, `(k, v)` and `after`, in that
order, `find(k)` returns `v`.  After `insert(2, x)`, `insert(2, y)`,
`find(2)` returns `x`. -/
theorem find_returns_earliest [LinearOrder K] [ToString K] [ToString V]
    (before after : List (K × V)) (k : K) (v : V) (hfirst : ∀ p ∈ before, p.1 ≠ k) :
    ((LBinaryTree.ctor : LBinaryTree K V).insertAll (before ++ (k, v) :: after)).find k =
        Except.ok v ∧
      (((LBinaryTree.ctor : LBinaryTree Int String).insert 2 "x").insert 2 "y").find 2 =
        Except.ok "x" := by
  refine ⟨?_, rfl⟩
  apply LBinaryTree.find_of_lookup_some
  rw [LBinaryTree.lookup_insertAll_of_none LBinaryTree.ctor _ k rfl, List.find?_append]
  have hb : before.find? (fun p => decide (p.1 = k)) = none :=
    List.find?_eq_none.2 (fun p hp => by simpa using hfirst p hp)
  simp [hb]

theorem find_returns_earliest_witness :
    ((LBinaryTree.ctor : LBinaryTree Nat String).insertAll
      ([(5, "a"), (3, "b")] ++ (4, "c") :: [(4, "d"), (1, "e")])).find 4 = Except.ok "c" :=
  (find_returns_earliest [(5, "a"), (3, "b")] [(4, "d"), (1, "e")] 4 "c" (by decide)).1

/-- C7: for every tree, `str()` is `<BinaryTree> size: `, the decimal size,
` values: [ `, the text of every stored value in in-order, each followed by
one space, and `]`.  On a tree built by inserts the in-order is ascending by
key, strictly when the inserted keys are distinct. -/
theorem str_format [LinearOrder K] [ToString V] (t : LBinaryTree K V) :
    t.str = "<BinaryTree> size: " ++ toString t.size ++ " values: [ " ++
        valuesText (t.root.inorder.map Prod.snd) ++ "]" ∧
      ∀ ps : List (K × V), t = (LBinaryTree.ctor : LBinaryTree K V).insertAll ps →
        List.Sorted (fun a b : K => a ≤ b) (t.root.inorder.map Prod.fst) ∧
          ((ps.map Prod.fst).Nodup →
            List.Sorted (fun a b : K => a < b) (t.root.inorder.map Prod.fst)) := by
  refine ⟨by rw [LBinaryTree.str, BinaryTreeNode.str_eq_valuesText], ?_⟩
  rintro ps rfl
  have hs : List.Sorted (fun a b : K => a ≤ b)
      (((LBinaryTree.ctor : LBinaryTree K V).insertAll ps).root.inorder.map Prod.fst) :=
    BinaryTreeNode.sorted_keys_of_isBST _ (LBinaryTree.isBST_insertAll _ ps trivial)
  refine ⟨hs, fun hd => List.Sorted.lt_of_le hs ?_⟩
  have hperm := (LBinaryTree.inorder_insertAll_perm (LBinaryTree.ctor : LBinaryTree K V) ps).map
    Prod.fst
  rw [hperm.nodup_iff]
  simpa [LBinaryTree.ctor, BinaryTreeNode.inorder] using hd

theorem str_format_witness :
    ((LBinaryTree.ctor : LBinaryTree Nat String).insertAll [(5, "a"), (3, "b"), (8, "c")]).str =
        "<BinaryTree> size: 3 values: [ b a c ]" ∧
      List.Sorted (fun a b : Nat => a < b)
        (((LBinaryTree.ctor : LBinaryTree Nat String).insertAll
          [(5, "a"), (3, "b"), (8, "c")]).root.inorder.map Prod.fst) :=
  have h := str_format ((LBinaryTree.ctor : LBinaryTree Nat String).insertAll
    [(5, "a"), (3, "b"), (8, "c")])
  ⟨h.1.trans rfl, ((h.2 [(5, "a"), (3, "b"), (8, "c")] rfl).2 (by decide))⟩

/-- C8: for parallel arrays `keys`, `values` of length `size`, the array
constructor returns the state that the default constructor followed by
`insert(keys[0], values[0])`, ..., `insert(keys[size-1], values[size-1])`
gives: same `root`, same `size`, which is the array length.  For keys
`[5, 3, 8]` and values `[a, b, c]` the size is 3 and `str` lists `b a c`. -/
theorem ctorArrays_eq_inserts [LE K] [DecidableRel (fun a b : K => a ≤ b)] (size : Int)
    (keys : List K) (values : List V) (hk : (keys.length : Int) = size)
    (hv : (values.length : Int) = size) :
    LBinaryTree.ctorArrays size keys values =
        some ((LBinaryTree.ctor : LBinaryTree K V).insertAll (keys.zip values)) ∧
      (((LBinaryTree.ctor : LBinaryTree K V).insertAll (keys.zip values)).size : Int) = size ∧
      (LBinaryTree.ctorArrays 3 [5, 3, 8] ["a", "b", "c"] :
          Option (LBinaryTree Int String)).map LBinaryTree.str =
        some "<BinaryTree> size: 3 values: [ b a c ]" := by
  have hk' : size.toNat = keys.length := by omega
  have hv' : size.toNat = values.length := by omega
  refine ⟨?_, ?_, rfl⟩
  · unfold LBinaryTree.ctorArrays
    rw [LBinaryTree.ctorArrays_loop keys values _ size.toNat (by omega) (by omega), hk']
    conv_lhs => rw [hk'.symm.trans hv', List.take_length, ← hv', hk', List.take_length]
    rfl
  · rw [LBinaryTree.size_insertAll]
    simp [LBinaryTree.ctor]
    omega

theorem ctorArrays_eq_inserts_witness :
    (LBinaryTree.ctorArrays 2 [2, 2] ["x", "y"] : Option (LBinaryTree Nat String)) =
      some (((LBinaryTree.ctor : LBinaryTree Nat String).insert 2 "x").insert 2 "y") :=
  (ctorArrays_eq_inserts 2 [2, 2] ["x", "y"] rfl rfl).1

/-- C10: for every tree, `clear()` leaves `root` absent and `size` 0, the
state of the default constructor; on the empty tree it gives the empty tree,
and a second `clear` changes nothing. -/
theorem clear_gives_empty (t : LBinaryTree K V) :
    t.clear.1 = LBinaryTree.ctor ∧ t.clear.1.root = BinaryTreeNode.null ∧ t.clear.1.size = 0 ∧
      (LBinaryTree.ctor : LBinaryTree K V).clear.1 = LBinaryTree.ctor ∧
      t.clear.1.clear.1 = t.clear.1 :=
  ⟨rfl, rfl, rfl, rfl, rfl⟩

/-- C11: in every state reachable from the default or the array constructor by
`insert` and `clear` calls, `size` is 0 exactly when `root` is absent. -/
theorem size_zero_iff_root_null [LE K] [DecidableRel (fun a b : K => a ≤ b)]
    (t : LBinaryTree K V) (h : t.Reachable) : t.size = 0 ↔ t.root = BinaryTreeNode.null := by
  rw [LBinaryTree.size_eq_count_of_reachable t h]
  cases t.root with
  | null => simp [BinaryTreeNode.count]
  | node left k v right => simp [BinaryTreeNode.count]

theorem size_zero_iff_root_null_witness :
    ((((LBinaryTree.ctor : LBinaryTree Nat String).insert 2 "x").clear.1.size = 0 ↔
        ((LBinaryTree.ctor : LBinaryTree Nat String).insert 2 "x").clear.1.root =
          BinaryTreeNode.null) ∧
      (((LBinaryTree.ctor : LBinaryTree Nat String).insert 2 "x").size = 0 ↔
        ((LBinaryTree.ctor : LBinaryTree Nat String).insert 2 "x").root = BinaryTreeNode.null)) :=
  ⟨size_zero_iff_root_null _ (LBinaryTree.Reachable.clear _
      (LBinaryTree.Reachable.insert _ 2 "x" LBinaryTree.Reachable.ctor)),
    size_zero_iff_root_null _ (LBinaryTree.Reachable.insert _ 2 "x" LBinaryTree.Reachable.ctor)⟩

/-- C12: when `find(key)` fails, the message of the exception is
`BinaryTreeKeyNotFoundException: could not find key-value of: `, the text of
the searched key, `, in tree:`, a newline and a tab, and `str()` of the whole
tree, whatever the subtree in which the descent ended. -/
theorem find_error_message [ToString K] [ToString V] [DecidableEq K] [LT K]
    [DecidableRel (fun a b : K => a < b)] (t : LBinaryTree K V) (key : K)
    (e : BinaryTreeKeyNotFoundException) (h : t.find key = Except.error e) :
    e.what = "BinaryTreeKeyNotFoundException: could not find key-value of: " ++ toString key ++
      ", in tree:\n\t" ++ t.str := by
  cases hl : t.root.lookup key with
  | some v =>
    rw [LBinaryTree.find_of_lookup_some t key v hl] at h
    cases h
  | none =>
    rw [LBinaryTree.find_of_lookup_none t key hl] at h
    cases h
    rfl

theorem find_error_message_witness :
    (⟨"BinaryTreeKeyNotFoundException: could not find key-value of: 4, in tree:\n\t" ++
        "<BinaryTree> size: 3 values: [ b a c ]"⟩ : BinaryTreeKeyNotFoundException).what =
      "BinaryTreeKeyNotFoundException: could not find key-value of: " ++ toString (4 : Nat) ++
        ", in tree:\n\t" ++
        ((LBinaryTree.ctor : LBinaryTree Nat String).insertAll
          [(5, "a"), (3, "b"), (8, "c")]).str :=
  find_error_message ((LBinaryTree.ctor : LBinaryTree Nat String).insertAll
    [(5, "a"), (3, "b"), (8, "c")]) 4 _ rfl

/-- C13: the default-constructed tree has `root` absent and `size` 0, its
`str()` is `<BinaryTree> size: 0 values: [ ]`, and `find(k)` throws the
key-not-found exception for every key `k`. -/
theorem ctor_is_empty [ToString K] [ToString V] [DecidableEq K] [LT K]
    [DecidableRel (fun a b : K => a < b)] :
    (LBinaryTree.ctor : LBinaryTree K V).root = BinaryTreeNode.null ∧
      (LBinaryTree.ctor : LBinaryTree K V).size = 0 ∧
      (LBinaryTree.ctor : LBinaryTree K V).str = "<BinaryTree> size: 0 values: [ ]" ∧
      ∀ k : K, ∃ e : BinaryTreeKeyNotFoundException,
        (LBinaryTree.ctor : LBinaryTree K V).find k = Except.error e :=
  by
  refine ⟨rfl, rfl, ?_, fun k => ⟨_, LBinaryTree.find_of_lookup_none _ k rfl⟩⟩
  show "<BinaryTree> size: " ++ toString 0 ++ " values: [ " ++ "" ++ "]" =
    "<BinaryTree> size: 0 values: [ ]"
  decide

/-- C18: `insert` does not disturb a lookup that succeeds: for every tree, of
any shape and with any comparison on the keys, if `find(k')` returns `v'`,
then after `insert(k, v)`, also with `k` equal to `k'`, `find(k')` returns
`v'`. -/
theorem insert_keeps_found [LE K] [DecidableRel (fun a b : K => a ≤ b)] [ToString K]
    [ToString V] [DecidableEq K] [LT K] [DecidableRel (fun a b : K => a < b)]
    (t : LBinaryTree K V) (k' : K) (v' : V) (k : K) (v : V) (h : t.find k' = Except.ok v') :
    (t.insert k v).find k' = Except.ok v' :=
  LBinaryTree.find_of_lookup_some _ _ _
    (BinaryTreeNode.lookup_insert_of_some t.root t.size k v k' v'
      (LBinaryTree.lookup_of_find_ok t k' v' h))

theorem insert_keeps_found_witness :
    ((((LBinaryTree.ctor : LBinaryTree Nat String).insert 2 "x").insert 5 "z").insert 2 "y").find
      2 = Except.ok "x" :=
  insert_keeps_found (((LBinaryTree.ctor : LBinaryTree Nat String).insert 2 "x").insert 5 "z")
    2 "x" 2 "y" rfl

/-- C19: for pairs with pairwise distinct keys under a total order, inserting
them into the empty tree in one order or in a permuted order gives the same
`size`, the same `str()` and the same result of `find` for every key; the
shapes can differ, as for the keys 1, 2 and 2, 1. -/
theorem insert_order_irrelevant [LinearOrder K] [ToString K] [ToString V]
    (ps qs : List (K × V)) (hperm : ps.Perm qs) (hd : (ps.map Prod.fst).Nodup) :
    ((LBinaryTree.ctor : LBinaryTree K V).insertAll ps).size =
        ((LBinaryTree.ctor : LBinaryTree K V).insertAll qs).size ∧
      ((LBinaryTree.ctor : LBinaryTree K V).insertAll ps).str =
        ((LBinaryTree.ctor : LBinaryTree K V).insertAll qs).str ∧
      (∀ k : K, ((LBinaryTree.ctor : LBinaryTree K V).insertAll ps).find k =
        ((LBinaryTree.ctor : LBinaryTree K V).insertAll qs).find k) ∧
      ((LBinaryTree.ctor : LBinaryTree Nat String).insertAll [(1, "a"), (2, "b")]).root ≠
        ((LBinaryTree.ctor : LBinaryTree Nat String).insertAll [(2, "b"), (1, "a")]).root := by
  have hsize : ((LBinaryTree.ctor : LBinaryTree K V).insertAll ps).size =
      ((LBinaryTree.ctor : LBinaryTree K V).insertAll qs).size := by
    rw [LBinaryTree.size_insertAll, LBinaryTree.size_insertAll, hperm.length_eq]
  have hstr : ((LBinaryTree.ctor : LBinaryTree K V).insertAll ps).str =
      ((LBinaryTree.ctor : LBinaryTree K V).insertAll qs).str := by
    rw [LBinaryTree.str, LBinaryTree.str, BinaryTreeNode.str_eq_valuesText,
      BinaryTreeNode.str_eq_valuesText, hsize, LBinaryTree.inorder_insertAll_of_perm ps qs hperm hd]
  refine ⟨hsize, hstr, fun k => LBinaryTree.find_congr _ _ k ?_ hstr, by decide⟩
  rw [LBinaryTree.lookup_insertAll_of_none LBinaryTree.ctor ps k rfl,
    LBinaryTree.lookup_insertAll_of_none LBinaryTree.ctor qs k rfl,
    List.find_key_eq_of_perm ps qs k hperm hd]

theorem insert_order_irrelevant_witness :
    ((LBinaryTree.ctor : LBinaryTree Nat String).insertAll [(1, "a"), (2, "b")]).str =
      ((LBinaryTree.ctor : LBinaryTree Nat String).insertAll [(2, "b"), (1, "a")]).str :=
  (insert_order_irrelevant [(1, "a"), (2, "b")] [(2, "b"), (1, "a")]
    (List.Perm.swap _ _ _) (by decide)).2.1

/-- C14: keys inserted into the empty tree in strictly increasing order, the
last pair being `(k, v)`, give the right-skewed chain of the pairs (the first
key at the root, no left child anywhere, each right child the next pair),
whose depth is the number of pairs, and `find(k)` returns `v`; for the keys
1, 2, 3, 4, 5 the depth is 5. -/
theorem increasing_inserts_give_right_chain [LinearOrder K] [ToString K] [ToString V]
    (ps : List (K × V)) (k : K) (v : V)
    (hs : List.Sorted (fun a b : K => a < b) ((ps ++ [(k, v)]).map Prod.fst)) :
    ((LBinaryTree.ctor : LBinaryTree K V).insertAll (ps ++ [(k, v)])).root =
        BinaryTreeNode.rightChain (ps ++ [(k, v)]) ∧
      ((LBinaryTree.ctor : LBinaryTree K V).insertAll (ps ++ [(k, v)])).root.depth =
        ps.length + 1 ∧
      ((LBinaryTree.ctor : LBinaryTree K V).insertAll (ps ++ [(k, v)])).find k = Except.ok v ∧
      ((LBinaryTree.ctor : LBinaryTree Nat String).insertAll
        [(1, "a"), (2, "b"), (3, "c"), (4, "d"), (5, "e")]).root.depth = 5 := by
  have hchain := LBinaryTree.insertAll_rightChain (LBinaryTree.ctor : LBinaryTree K V) []
    (ps ++ [(k, v)]) rfl (by simpa using hs)
  rw [List.nil_append] at hchain
  refine ⟨hchain, ?_, ?_, by decide⟩
  · rw [hchain, BinaryTreeNode.depth_rightChain]
    simp
  · apply LBinaryTree.find_of_lookup_some
    rw [LBinaryTree.lookup_insertAll_of_none LBinaryTree.ctor _ k rfl, List.find?_append]
    have hlt : ∀ p ∈ ps, p.1 < k := by
      intro p hp
      rw [List.map_append] at hs
      exact (List.pairwise_append.1 hs).2.2 p.1 (List.mem_map_of_mem Prod.fst hp) k
        (by simp)
    have hb : ps.find? (fun p => decide (p.1 = k)) = none :=
      List.find?_eq_none.2 (fun p hp => by simpa using (hlt p hp).ne)
    simp [hb]

theorem increasing_inserts_give_right_chain_witness :
    ((LBinaryTree.ctor : LBinaryTree Nat String).insertAll
        ([(1, "a"), (2, "b"), (3, "c"), (4, "d")] ++ [(5, "e")])).find 5 = Except.ok "e" :=
  (increasing_inserts_give_right_chain [(1, "a"), (2, "b"), (3, "c"), (4, "d")] 5 "e"
    (by decide)).2.2.1

/-- C15: after the pairs `ps` have been inserted in that order into the empty
tree, the in-order sequence, which `str` prints, is the stable sort by key
(insertion sort) of the reversed sequence: it is sorted by key and the pairs
of one key are in the order they have in the reversed sequence.  After
`insert(2, x)`, `insert(2, y)`, `y` precedes `x`. -/
theorem inorder_is_stable_sort_of_reverse [LinearOrder K] [ToString V] (ps : List (K × V)) :
    ((LBinaryTree.ctor : LBinaryTree K V).insertAll ps).root.inorder =
        List.insertionSort (fun p q : K × V => p.1 ≤ q.1) ps.reverse ∧
      ((LBinaryTree.ctor : LBinaryTree K V).insertAll ps).root.str =
        valuesText ((List.insertionSort (fun p q : K × V => p.1 ≤ q.1) ps.reverse).map
          Prod.snd) ∧
      (∀ k : K, ((LBinaryTree.ctor : LBinaryTree K V).insertAll ps).root.inorder.filter
          (fun p => decide (p.1 = k)) = ps.reverse.filter (fun p => decide (p.1 = k))) ∧
      ((LBinaryTree.ctor : LBinaryTree Nat String).insertAll [(2, "x"), (2, "y")]).root.inorder =
        [(2, "y"), (2, "x")] := by
  have h : ((LBinaryTree.ctor : LBinaryTree K V).insertAll ps).root.inorder =
      List.insertionSort (fun p q : K × V => p.1 ≤ q.1) ps.reverse := by
    rw [LBinaryTree.inorder_insertAll_eq_foldl LBinaryTree.ctor ps trivial,
      List.insertionSort_eq_foldr,
      List.foldr_reverse]
    rfl
  refine ⟨h, ?_, fun k => ?_, by decide⟩
  · rw [BinaryTreeNode.str_eq_valuesText, h]
  · rw [h, List.filter_key_insertionSort]

/-- C16, as the claim has it, fails: `PairKey` has a strict partial order
(irreflexive, transitive, `≤` is `<` or `==`), and after `insert((0,1), a)`,
`insert((1,0), b)` the key `(1,0)` is in the right subtree of `(0,1)` without
being greater. -/
theorem node_invariant_fails_for_partial_order :
    (∀ a : PairKey, ¬ a < a) ∧ (∀ a b c : PairKey, a < b → b < c → a < c) ∧
      (∀ a b : PairKey, a ≤ b ↔ a < b ∨ a = b) ∧
      ((LBinaryTree.ctor : LBinaryTree PairKey String).insertAll
          [(⟨0, 1⟩, "a"), (⟨1, 0⟩, "b")]).root =
        BinaryTreeNode.node BinaryTreeNode.null ⟨0, 1⟩ "a"
          (BinaryTreeNode.node BinaryTreeNode.null ⟨1, 0⟩ "b" BinaryTreeNode.null) ∧
      ¬ ((⟨0, 1⟩ : PairKey) < ⟨1, 0⟩) ∧
      ¬ ((LBinaryTree.ctor : LBinaryTree PairKey String).insertAll
          [(⟨0, 1⟩, "a"), (⟨1, 0⟩, "b")]).root.IsBST := by
  refine ⟨fun a h => h.2.2 rfl, ?_, fun a b => Iff.rfl, by decide, by decide, by decide⟩
  rintro a b c ⟨h1, h2, h3⟩ ⟨h4, h5, h6⟩
  refine ⟨le_trans h1 h4, le_trans h2 h5, ?_⟩
  rintro rfl
  apply h3
  cases a
  cases b
  simp only [PairKey.mk.injEq]
  simp only at h1 h2 h4 h5
  omega

/-- C16, amended: for every key type and every sequence of inserts into the
empty tree, at every node the keys of the left subtree are `≤` the key of the
node and the keys of the right subtree are not `≤` it; when the order is
total (`¬ a ≤ b` gives `b < a`) the keys of the right subtree are `>` the
key of the node. -/
theorem node_invariant_by_routing [LE K] [LT K] [DecidableRel (fun a b : K => a ≤ b)]
    (ps : List (K × V)) :
    ((LBinaryTree.ctor : LBinaryTree K V).insertAll ps).root.IsRouted ∧
      ((∀ a b : K, ¬ a ≤ b → b < a) →
        ((LBinaryTree.ctor : LBinaryTree K V).insertAll ps).root.IsBST) :=
  have h := LBinaryTree.isRouted_insertAll (LBinaryTree.ctor : LBinaryTree K V) ps trivial
  ⟨h, fun htotal => BinaryTreeNode.isBST_of_isRouted _ htotal h⟩

theorem node_invariant_by_routing_witness :
    ((LBinaryTree.ctor : LBinaryTree Nat String).insertAll
      [(5, "a"), (3, "b"), (8, "c"), (3, "d")]).root.IsBST :=
  (node_invariant_by_routing [(5, "a"), (3, "b"), (8, "c"), (3, "d")]).2
    (fun _ _ h => Nat.lt_of_not_le h)

/-- C17: with the deletions of `clear(root)` as a trace of node positions, every
node reachable from `root` is deleted exactly once (the trace has no
repetition, holds exactly the positions of the nodes, and is as long as the
node count); every node in the subtree of a node is deleted before that
node; the nodes of the left subtree of a node are deleted before those of its
right subtree.  The public `clear` deletes what the recursive one does. -/
theorem clear_releases_postorder (n : BinaryTreeNode K V) :
    (∀ p : NodePath, p ∈ n.clear ↔ n.hasNodeAt p = true) ∧ n.clear.Nodup ∧
      n.clear.length = n.count ∧
      (∀ (p : NodePath) (d : Bool) (r : NodePath), n.hasNodeAt (p ++ d :: r) = true →
        ReleasedBefore n.clear (p ++ d :: r) p) ∧
      (∀ p r s : NodePath, n.hasNodeAt (p ++ false :: r) = true →
        n.hasNodeAt (p ++ true :: s) = true →
          ReleasedBefore n.clear (p ++ false :: r) (p ++ true :: s)) ∧
      ∀ t : LBinaryTree K V, t.clear.2 = t.root.clear := by
  refine ⟨n.mem_clear_iff, n.nodup_clear, n.length_clear, ?_, ?_, fun _ => rfl⟩
  · intro p d r h
    have hne : p ++ d :: r ≠ p := by
      intro e
      have := congrArg List.length e
      simp at this
    refine ReleasedBefore.of_pairwise PostOrderAllows _ _ _ n.pairwise_clear
      ((n.mem_clear_iff _).2 h) ((n.mem_clear_iff _).2 (n.hasNodeAt_of_append p _ h)) hne ?_
    exact fun hallow => hallow.1 (d :: r) rfl
  · intro p r s h1 h2
    have hne : p ++ false :: r ≠ p ++ true :: s := by
      intro e
      have := List.append_cancel_left e
      cases this
    refine ReleasedBefore.of_pairwise PostOrderAllows _ _ _ n.pairwise_clear
      ((n.mem_clear_iff _).2 h1) ((n.mem_clear_iff _).2 h2) hne ?_
    exact fun hallow => hallow.2 p s r ⟨rfl, rfl⟩

theorem clear_releases_postorder_witness :
    ((LBinaryTree.ctor : LBinaryTree Nat String).insertAll
        [(5, "a"), (3, "b"), (8, "c")]).root.clear = [[false], [true], []] ∧
      ReleasedBefore ((LBinaryTree.ctor : LBinaryTree Nat String).insertAll
        [(5, "a"), (3, "b"), (8, "c")]).root.clear ([] ++ [false]) [] ∧
      ReleasedBefore ((LBinaryTree.ctor : LBinaryTree Nat String).insertAll
        [(5, "a"), (3, "b"), (8, "c")]).root.clear ([] ++ [false]) ([] ++ [true]) :=
  have h := clear_releases_postorder ((LBinaryTree.ctor : LBinaryTree Nat String).insertAll
    [(5, "a"), (3, "b"), (8, "c")]).root
  ⟨by decide, h.2.2.2.1 [] false [] (by decide), h.2.2.2.2.1 [] [] [] (by decide) (by decide)⟩

end Properties
